import Mathlib

/-!
Shallow embedding of the LZ4NetLegacyRust streaming codec (src/lib.rs).

Bytes are modelled as natural numbers (every read goes through an explicit
`% 256`), machine integers as naturals with explicit truncation where the
source casts, and the Rust `std::io::Cursor` as the underlying byte list plus
a position.  The compilation target is 64-bit, so `usize` has width 64 and a
`u64 as usize` cast is the identity.  The external block compressor
(lz4_flex) is a parameter, per the spec's external-collaborator contract;
the varint header codec (the external bytes-varint crate) is modelled from
the spec, section 4.1.  Loops are written with an explicit fuel argument;
every iteration of either decode loop consumes at least two input bytes
(two one-byte-minimum varints), so the fuel `remaining + 1` used by the
top-level wrappers is never exhausted.
-/

namespace LZ4Stream

/-- Model of `std::io::Cursor` over a byte slice: underlying bytes plus the
current position (`Cursor<&mut [u8]>` and `Cursor<Vec<u8>>` in the source). -/
structure Cursor where
  data : List Nat
  pos : Nat
deriving DecidableEq

/-- Model of `Buf::remaining` for a cursor: bytes left after the position
(saturating subtraction, as in the bytes crate). -/
def Cursor.remaining (c : Cursor) : Nat := c.data.length - c.pos

/-- Model of `Buf::chunk`: the byte slice from the current position to the end. -/
def Cursor.chunk (c : Cursor) : List Nat := c.data.drop c.pos

/-- Model of `Buf::get_u8`: read one byte and advance, or fail when exhausted. -/
def Cursor.getU8 (c : Cursor) : Option (Nat × Cursor) :=
  match c.data.drop c.pos with
  | [] => none
  | b :: _ => some (b % 256, ⟨c.data, c.pos + 1⟩)

/-- Model of `Buf::advance`. -/
def Cursor.advance (c : Cursor) (n : Nat) : Cursor := ⟨c.data, c.pos + n⟩

/-- Model of `Cursor::set_position`. -/
def Cursor.setPos (c : Cursor) (p : Nat) : Cursor := ⟨c.data, p⟩

/-- Error type of the external bytes-varint crate (`VarIntError`). -/
inductive VarIntError where
  | numericOverflow
  | bufferUnderflow
deriving DecidableEq

/-- Modelled from the spec: the Chunk Header Codec's varint decode (spec 4.1),
implemented in the source by the external bytes-varint crate's
`get_u64_varint`.  Little-endian groups of seven data bits per byte with a
continuation bit in the high bit; fails with `bufferUnderflow` when the cursor
is exhausted mid-integer and with `numericOverflow` when the decoded value
does not fit the 64-bit target width.  Ten bytes of fuel suffice for every
representable u64 value. -/
def getVarintAux : Nat → Cursor → Nat → Nat → Except VarIntError (Nat × Cursor)
  | 0, _, _, _ => .error .numericOverflow
  | fuel + 1, c, shift, acc =>
    match c.getU8 with
    | none => .error .bufferUnderflow
    | some (b, c1) =>
      let v := acc + b % 128 * 2 ^ shift
      if 2 ^ 64 ≤ v then .error .numericOverflow
      else if b < 128 then .ok (v, c1)
      else getVarintAux fuel c1 (shift + 7) v

/-- Model of `get_u64_varint` on a cursor. -/
def get_u64_varint (c : Cursor) : Except VarIntError (Nat × Cursor) :=
  getVarintAux 10 c 0 0

/-- Modelled from the spec: the Chunk Header Codec's varint encode (spec 4.1),
implemented in the source by the bytes-varint crate's `put_u64_varint`.
Returns the emitted bytes.  Fuel 10 suffices for every u64 value. -/
def putVarintAux : Nat → Nat → List Nat
  | 0, v => [v % 128]
  | fuel + 1, v => if v < 128 then [v] else (v % 128 + 128) :: putVarintAux fuel (v / 128)

/-- Varint encoding of a u64 value. -/
def putVarint (v : Nat) : List Nat := putVarintAux 10 v

/-- Error detail of the external lz4_flex decompressor (`DecompressError`);
its variants are never inspected by the codec, so it is modelled as opaque
single-constructor data. -/
inductive DecompressErr where
  | corrupt
deriving DecidableEq

/-- Model of the source's `ChunkResult` error enum. -/
inductive ChunkResult where
  | overflow
  | varintFail
  | lz4Fail (e : DecompressErr)
deriving DecidableEq

/-- Model of the source's `DSError` enum. -/
inductive DSError where
  | lz4 (e : DecompressErr)
  | corruptedOverflow
  | overflow (computed max : Nat)
  | varintFail
deriving DecidableEq

/-- Model of `impl From of VarIntError for ChunkResult` (src lines 80-88):
both variants map to `VarintFail`. -/
def ChunkResult.ofVarIntError : VarIntError → ChunkResult
  | .numericOverflow => .varintFail
  | .bufferUnderflow => .varintFail

/-- Model of `impl From of ChunkResult for DSError` (src lines 90-99). -/
def DSError.ofChunkResult : ChunkResult → DSError
  | .overflow => .corruptedOverflow
  | .varintFail => .varintFail
  | .lz4Fail e => .lz4 e

/-- The Rust cast chain `as i32 as usize` applied to a u64 value on a 64-bit
target (src line 124): truncate to the low 32 bits, reinterpret as a signed
32-bit value, then sign-extend to 64 bits. -/
def u64_as_i32_as_usize (v : Nat) : Nat :=
  let low := v % 2 ^ 32
  if low < 2 ^ 31 then low else low + (2 ^ 64 - 2 ^ 32)

/-- Model of `usize::checked_add` on a 64-bit target. -/
def checkedAddUsize (a b : Nat) : Option Nat :=
  if a + b < 2 ^ 64 then some (a + b) else none

/-- Loop body of `calc_dc_size` (src lines 112-137), with fuel.  Arguments:
fuel, the cursor, the running `count`, and the saved `prev_pos`.  Each
iteration consumes at least two input bytes, so the zero-fuel branch is
unreachable from `calc_dc_size`. -/
def calcLoop : Nat → Cursor → Nat → Nat → Except ChunkResult (Nat × Cursor)
  | 0, _, _, _ => .error .overflow
  | fuel + 1, data, count, prev_pos =>
    if data.remaining = 0 then .ok (count, data.setPos prev_pos)
    else
      match get_u64_varint data with
      | .error e => .error (ChunkResult.ofVarIntError e)
      | .ok (flags_raw, d1) =>
        let is_compressed : Bool := flags_raw % 2 ^ 32 % 2 == 1
        match get_u64_varint d1 with
        | .error e => .error (ChunkResult.ofVarIntError e)
        | .ok (original_length, d2) =>
          let lenRes : Except ChunkResult (Nat × Cursor) :=
            if is_compressed then
              match get_u64_varint d2 with
              | .error e => .error (ChunkResult.ofVarIntError e)
              | .ok (l, d3) => .ok (u64_as_i32_as_usize l, d3)
            else .ok (original_length, d2)
          match lenRes with
          | .error e => .error e
          | .ok (length, d3) =>
            if length > d3.remaining then .error .overflow
            else
              match checkedAddUsize count original_length with
              | none => .error .overflow
              | some count1 => calcLoop fuel (d3.advance length) count1 prev_pos

/-- Model of `calc_dc_size` (src lines 108-138): computes the total decoded
size by a pure lookahead pass, restoring the saved position on success. -/
def calc_dc_size (data : Cursor) : Except ChunkResult (Nat × Cursor) :=
  calcLoop (data.remaining + 1) data 0 data.pos

/-- Model of the source's `StreamDecodeState`. -/
structure StreamDecodeState where
  input : Cursor
  output : Cursor
deriving DecidableEq

/-- Writing a byte list into a buffer at a position: the effect of filling the
slice `buffer[pos..pos + w.length]` with `w`. -/
def writeAt (l : List Nat) (pos : Nat) (w : List Nat) : List Nat :=
  l.take pos ++ w ++ l.drop (pos + w.length)

/-- Model of `get_chunk` (src lines 140-176).  The external decompressor is
the parameter `dec`: `dec cv n` models `lz4_flex::block::decompress_into`
called on payload `cv` with a destination slice of length `n`, returning the
bytes it wrote (their count is the Rust return value). -/
def get_chunk (dec : List Nat → Nat → Except DecompressErr (List Nat))
    (state : StreamDecodeState) : Except ChunkResult (Bool × StreamDecodeState) :=
  if state.input.remaining = 0 then .ok (true, state)
  else
    match get_u64_varint state.input with
    | .error e => .error (ChunkResult.ofVarIntError e)
    | .ok (flags_raw, i1) =>
      let is_compressed : Bool := flags_raw % 2 ^ 32 % 2 == 1
      match get_u64_varint i1 with
      | .error e => .error (ChunkResult.ofVarIntError e)
      | .ok (original_length, i2) =>
        let lenRes : Except ChunkResult (Nat × Cursor) :=
          if is_compressed then
            match get_u64_varint i2 with
            | .error e => .error (ChunkResult.ofVarIntError e)
            | .ok (l, i3) => .ok (l, i3)
          else .ok (original_length, i2)
        match lenRes with
        | .error e => .error e
        | .ok (length, i3) =>
          if length > i3.remaining ∨ original_length > state.output.remaining then
            .error .overflow
          else
            let cv := i3.chunk.take length
            let pos := state.output.pos
            if is_compressed then
              match dec cv original_length with
              | .error e => .error (.lz4Fail e)
              | .ok w =>
                if w.length ≠ original_length then .error .overflow
                else .ok (false, ⟨i3.advance length,
                  ⟨writeAt state.output.data pos w, pos + original_length⟩⟩)
            else
              .ok (false, ⟨i3.advance length,
                ⟨writeAt state.output.data pos cv, pos + original_length⟩⟩)

/-- The fill loop of `decode_stream` (src lines 34-36), with fuel.  Each
non-terminal `get_chunk` consumes at least two input bytes, so the zero-fuel
branch is unreachable from `decode_stream`. -/
def fillLoop (dec : List Nat → Nat → Except DecompressErr (List Nat)) :
    Nat → StreamDecodeState → Except ChunkResult (List Nat)
  | 0, _ => .error .overflow
  | fuel + 1, state =>
    match get_chunk dec state with
    | .error e => .error e
    | .ok (true, st1) => .ok st1.output.data
    | .ok (false, st1) => fillLoop dec fuel st1

/-- Model of `decode_stream` (src lines 21-38). -/
def decode_stream (dec : List Nat → Nat → Except DecompressErr (List Nat))
    (data : Cursor) (max_output : Nat) : Except DSError (List Nat) :=
  match calc_dc_size data with
  | .error e => .error (DSError.ofChunkResult e)
  | .ok (out_size, d1) =>
    if out_size > max_output then .error (.overflow out_size max_output)
    else
      match fillLoop dec (d1.remaining + 1) ⟨d1, ⟨List.replicate out_size 0, 0⟩⟩ with
      | .error e => .error (DSError.ofChunkResult e)
      | .ok out => .ok out

/-- Model of the `BLOCKSIZE` constant (src line 178). -/
def BLOCKSIZE : Nat := 1024 * 1024

/-- Model of `write_chunk` (src lines 180-187), returning the bytes appended
to the result buffer.  The external compressor is the parameter `compress`. -/
def write_chunk (compress : List Nat → List Nat) (input : List Nat) : List Nat :=
  putVarint 1 ++ putVarint input.length ++ putVarint (compress input).length ++ compress input

/-- The encoder loop of `encode_stream` (src lines 52-61), with fuel.  Each
iteration consumes at least one input byte, so the zero-fuel branch is
unreachable from `encode_stream`. -/
def encodeLoop (compress : List Nat → List Nat) : Nat → List Nat → List Nat → List Nat
  | 0, _, result => result
  | fuel + 1, data, result =>
    if data.length = 0 then result
    else
      let len := min data.length BLOCKSIZE
      encodeLoop compress fuel (data.drop len) (result ++ write_chunk compress (data.take len))

/-- Model of `encode_stream` (src lines 46-63); it always returns `Ok`. -/
def encode_stream (compress : List Nat → List Nat) (data : List Nat) :
    Except DSError (List Nat) :=
  .ok (encodeLoop compress (data.length + 1) data [])

/-- An on-wire chunk as described by the wire format (spec section 6): flags,
declared original length, declared compressed length (meaningful only when the
Compressed bit is set) and the framed payload bytes. -/
structure WireChunk where
  flags : Nat
  origLen : Nat
  clen : Nat
  payload : List Nat

/-- Whether the Compressed flag (bit 0 of the low 32 bits) is set, exactly the
test performed by both decode passes. -/
def WireChunk.isComp (c : WireChunk) : Bool := c.flags % 2 ^ 32 % 2 == 1

/-- The framed payload length declared by the header: the compressed length
when the Compressed bit is set, else the original length. -/
def WireChunk.framedLen (c : WireChunk) : Nat :=
  if c.isComp then c.clen else c.origLen

/-- Serialization of one chunk per the wire format: flags varint, original
length varint, compressed-length varint only when the Compressed bit is set,
then the payload bytes. -/
def WireChunk.ser (c : WireChunk) : List Nat :=
  putVarint c.flags ++ putVarint c.origLen ++
    (if c.isComp then putVarint c.clen else []) ++ c.payload

/-- Well-formedness of a chunk: header values representable as u64, the
compressed length below 2 to the 31 (so that the size pass's `as i32 as usize`
cast is the identity on it), and the payload exactly as long as declared. -/
def WireChunk.wf (c : WireChunk) : Prop :=
  c.flags < 2 ^ 64 ∧ c.origLen < 2 ^ 64 ∧ c.clen < 2 ^ 31 ∧
    c.payload.length = c.framedLen

/-- Serialization of a chunk sequence: plain concatenation, no separators. -/
def serChunks : List WireChunk → List Nat
  | [] => []
  | c :: cs => c.ser ++ serChunks cs

/-- Sum of the declared original lengths of a chunk sequence. -/
def sumOrig : List WireChunk → Nat
  | [] => 0
  | c :: cs => c.origLen + sumOrig cs

/-- Concatenation of a list of byte lists. -/
def wsJoin : List (List Nat) → List Nat
  | [] => []
  | w :: ws => w ++ wsJoin ws

/-- The decompressor `dec` turns the wire chunk `c` into the bytes `w`: the
declared original length matches, and either the chunk is compressed and the
decompressor succeeds with `w` on its payload, or it is stored verbatim. -/
def DecodesTo (dec : List Nat → Nat → Except DecompressErr (List Nat))
    (c : WireChunk) (w : List Nat) : Prop :=
  w.length = c.origLen ∧
    (if c.isComp then dec c.payload c.origLen = .ok w else w = c.payload)

/-- The block decomposition performed by the encoder loop: successive slices
of up to `BLOCKSIZE` bytes. -/
def chunksOfB (l : List Nat) : List (List Nat) :=
  if l = [] then [] else l.take BLOCKSIZE :: chunksOfB (l.drop BLOCKSIZE)
termination_by l.length
decreasing_by
  simp only [List.length_drop]
  have : l.length ≠ 0 := fun h => by
    simp [List.length_eq_zero.mp h] at *
  simp [BLOCKSIZE]
  omega

/-- The wire chunk the encoder emits for one input block. -/
def encChunk (compress : List Nat → List Nat) (blk : List Nat) : WireChunk :=
  ⟨1, blk.length, (compress blk).length, compress blk⟩

/-- Reference variant of `calcLoop` that accumulates the declared original
lengths with unbounded natural-number addition instead of
`usize::checked_add`; everything else is identical.  It defines the exact
mathematical sum of the declared original lengths of a stream, against which
the overflow-checked accumulation of `calc_dc_size` is compared. -/
def calcLoopUnchecked : Nat → Cursor → Nat → Nat → Except ChunkResult (Nat × Cursor)
  | 0, _, _, _ => .error .overflow
  | fuel + 1, data, count, prev_pos =>
    if data.remaining = 0 then .ok (count, data.setPos prev_pos)
    else
      match get_u64_varint data with
      | .error e => .error (ChunkResult.ofVarIntError e)
      | .ok (flags_raw, d1) =>
        let is_compressed : Bool := flags_raw % 2 ^ 32 % 2 == 1
        match get_u64_varint d1 with
        | .error e => .error (ChunkResult.ofVarIntError e)
        | .ok (original_length, d2) =>
          let lenRes : Except ChunkResult (Nat × Cursor) :=
            if is_compressed then
              match get_u64_varint d2 with
              | .error e => .error (ChunkResult.ofVarIntError e)
              | .ok (l, d3) => .ok (u64_as_i32_as_usize l, d3)
            else .ok (original_length, d2)
          match lenRes with
          | .error e => .error e
          | .ok (length, d3) =>
            if length > d3.remaining then .error .overflow
            else calcLoopUnchecked fuel (d3.advance length) (count + original_length) prev_pos

/-- Reference size pass with unbounded accumulation, wrapping
`calcLoopUnchecked` exactly as `calc_dc_size` wraps `calcLoop`. -/
def calcSizeUnchecked (data : Cursor) : Except ChunkResult (Nat × Cursor) :=
  calcLoopUnchecked (data.remaining + 1) data 0 data.pos

theorem drop_of_drop_append {full xs ys : List Nat} {pos : Nat}
    (h : full.drop pos = xs ++ ys) : full.drop (pos + xs.length) = ys := by
  have h1 : full.drop (pos + xs.length) = (full.drop pos).drop xs.length := by
    rw [List.drop_drop]
  rw [h1, h, List.drop_left]

theorem length_drop_of_append {full xs ys : List Nat} {pos : Nat}
    (h : full.drop pos = xs ++ ys) : full.length - pos = xs.length + ys.length := by
  have h1 := List.length_drop pos full
  rw [h, List.length_append] at h1
  omega

theorem putVarintAux_ne_nil (fuel v : Nat) : putVarintAux fuel v ≠ [] := by
  cases fuel with
  | zero => simp [putVarintAux]
  | succ f =>
    simp only [putVarintAux]
    split <;> simp

theorem putVarint_ne_nil (v : Nat) : putVarint v ≠ [] := putVarintAux_ne_nil 10 v

theorem getU8_some {c : Cursor} {b : Nat} {c1 : Cursor} (h : c.getU8 = some (b, c1)) :
    c1.data = c.data ∧ c1.pos = c.pos + 1 ∧ c.pos < c.data.length ∧ b < 256 := by
  unfold Cursor.getU8 at h
  cases hd : c.data.drop c.pos with
  | nil => rw [hd] at h; exact absurd h (by simp)
  | cons x t =>
    rw [hd] at h
    have hlen : ¬ (c.data.length ≤ c.pos) := by
      intro hle
      have : c.data.drop c.pos = [] := List.drop_eq_nil_iff.mpr hle
      rw [hd] at this
      exact absurd this (by simp)
    simp only [Option.some.injEq, Prod.mk.injEq] at h
    refine ⟨by rw [← h.2], by rw [← h.2], by omega, ?_⟩
    rw [← h.1]
    exact Nat.mod_lt x (by norm_num)

theorem getVarintAux_ok_sound :
    ∀ (fuel : Nat) (c : Cursor) (shift acc v : Nat) (c1 : Cursor),
      getVarintAux fuel c shift acc = .ok (v, c1) →
      c1.data = c.data ∧ c.pos < c1.pos ∧ c1.pos ≤ c.data.length := by
  intro fuel
  induction fuel with
  | zero => intro c shift acc v c1 h; exact absurd h (by simp [getVarintAux])
  | succ f ih =>
    intro c shift acc v c1 h
    rw [getVarintAux] at h
    cases hg : c.getU8 with
    | none => rw [hg] at h; exact absurd h (by simp)
    | some bc =>
      obtain ⟨b, c2⟩ := bc
      obtain ⟨hdata, hpos, hlt, _⟩ := getU8_some hg
      rw [hg] at h
      simp only at h
      split at h
      · exact absurd h (by simp)
      · split at h
        · simp only [Except.ok.injEq, Prod.mk.injEq] at h
          rw [← h.2]
          exact ⟨hdata, by omega, by omega⟩
        · obtain ⟨h1, h2, h3⟩ := ih c2 (shift + 7) _ v c1 h
          rw [hdata] at h1 h3
          exact ⟨h1, by omega, h3⟩

theorem get_u64_varint_ok_sound {c : Cursor} {v : Nat} {c1 : Cursor}
    (h : get_u64_varint c = .ok (v, c1)) :
    c1.data = c.data ∧ c.pos < c1.pos ∧ c1.pos ≤ c.data.length :=
  getVarintAux_ok_sound 10 c 0 0 v c1 h

theorem getVarintAux_putVarintAux :
    ∀ (fuel v shift acc : Nat) (full rest : List Nat) (pos : Nat),
      0 < fuel → v < 2 ^ (7 * fuel) → acc + v * 2 ^ shift < 2 ^ 64 →
      full.drop pos = putVarintAux fuel v ++ rest →
      getVarintAux fuel ⟨full, pos⟩ shift acc
        = .ok (acc + v * 2 ^ shift, ⟨full, pos + (putVarintAux fuel v).length⟩) := by
  intro fuel
  induction fuel with
  | zero => intro v shift acc full rest pos h0; exact absurd h0 (Nat.lt_irrefl 0)
  | succ f ih =>
    intro v shift acc full rest pos _ hv hbound hdrop
    by_cases hvs : v < 128
    · simp only [putVarintAux, if_pos hvs] at hdrop ⊢
      have hmod : v % 256 = v := Nat.mod_eq_of_lt (by omega)
      have hm128 : v % 128 = v := Nat.mod_eq_of_lt hvs
      rw [getVarintAux]
      simp only [List.cons_append, List.nil_append] at hdrop
      simp only [Cursor.getU8, hdrop]
      simp only [hmod, hm128]
      rw [if_neg (by omega), if_pos hvs]
      simp
    · simp only [putVarintAux, if_neg hvs] at hdrop ⊢
      have hmlt : v % 128 < 128 := Nat.mod_lt v (by norm_num)
      have hmod : (v % 128 + 128) % 256 = v % 128 + 128 := Nat.mod_eq_of_lt (by omega)
      have hm : (v % 128 + 128) % 128 = v % 128 := by
        rw [Nat.add_mod_right]
        exact Nat.mod_eq_of_lt hmlt
      have hmle : v % 128 * 2 ^ shift ≤ v * 2 ^ shift :=
        Nat.mul_le_mul_right _ (Nat.mod_le v 128)
      have hf : 0 < f := by
        rcases Nat.eq_zero_or_pos f with hf0 | hf0
        · subst hf0; norm_num at hv; omega
        · exact hf0
      have hdivlt : v / 128 < 2 ^ (7 * f) := by
        rw [Nat.div_lt_iff_lt_mul (by norm_num : (0:Nat) < 128)]
        have : 2 ^ (7 * (f + 1)) = 2 ^ (7 * f) * 128 := by
          rw [show 7 * (f + 1) = 7 * f + 7 by ring, pow_add]
          norm_num
        omega
      have h27 : (2 : Nat) ^ (shift + 7) = 2 ^ shift * 128 := by
        rw [pow_add]; norm_num
      have hsplit : acc + v % 128 * 2 ^ shift + v / 128 * 2 ^ (shift + 7)
          = acc + v * 2 ^ shift := by
        rw [h27]
        have h2 : v % 128 + 128 * (v / 128) = v := Nat.mod_add_div v 128
        calc acc + v % 128 * 2 ^ shift + v / 128 * (2 ^ shift * 128)
            = acc + (v % 128 + 128 * (v / 128)) * 2 ^ shift := by ring
          _ = acc + v * 2 ^ shift := by rw [h2]
      have hdrop1 : full.drop (pos + 1) = putVarintAux f (v / 128) ++ rest := by
        have h1 : full.drop (pos + 1) = (full.drop pos).drop 1 := by
          rw [List.drop_drop]
        rw [h1, hdrop]
        simp
      rw [getVarintAux]
      simp only [List.cons_append] at hdrop
      simp only [Cursor.getU8, hdrop]
      simp only [hmod, hm]
      rw [if_neg (by omega), if_neg (by omega)]
      rw [ih (v / 128) (shift + 7) (acc + v % 128 * 2 ^ shift) full rest (pos + 1) hf
        hdivlt (by rw [hsplit]; exact hbound) hdrop1]
      simp only [List.length_cons, Except.ok.injEq, Prod.mk.injEq, Cursor.mk.injEq]
      exact ⟨hsplit, trivial, by omega⟩

theorem get_u64_varint_put {v : Nat} {full rest : List Nat} {pos : Nat}
    (hv : v < 2 ^ 64) (hdrop : full.drop pos = putVarint v ++ rest) :
    get_u64_varint ⟨full, pos⟩ = .ok (v, ⟨full, pos + (putVarint v).length⟩) := by
  have h := getVarintAux_putVarintAux 10 v 0 0 full rest pos (by norm_num)
    (lt_of_lt_of_le hv (by norm_num)) (by simpa using hv) hdrop
  simpa [get_u64_varint, putVarint] using h

theorem putVarint_length_pos (v : Nat) : 0 < (putVarint v).length :=
  List.length_pos.mpr (putVarint_ne_nil v)

theorem u64_as_i32_as_usize_small {v : Nat} (h : v < 2 ^ 31) :
    u64_as_i32_as_usize v = v := by
  have h32 : v % 2 ^ 32 = v := Nat.mod_eq_of_lt (by omega)
  simp only [u64_as_i32_as_usize, h32, if_pos h]

theorem calcLoop_step {c : WireChunk} {tail full : List Nat} {pos count pp f : Nat}
    (hwf : c.wf) (hdrop0 : full.drop pos = c.ser ++ tail)
    (hadd : count + c.origLen < 2 ^ 64) :
    calcLoop (f + 1) ⟨full, pos⟩ count pp
      = calcLoop f ⟨full, pos + c.ser.length⟩ (count + c.origLen) pp := by
  obtain ⟨hf64, ho64, hc31, hpay⟩ := hwf
  have haddEq : checkedAddUsize count c.origLen = some (count + c.origLen) := by
    unfold checkedAddUsize
    rw [if_pos hadd]
  cases hcomp : c.isComp with
  | true =>
    have hdrop : full.drop pos = putVarint c.flags ++ (putVarint c.origLen ++
        (putVarint c.clen ++ (c.payload ++ tail))) := by
      simpa only [WireChunk.ser, hcomp, if_true, List.append_assoc] using hdrop0
    have hF : get_u64_varint ⟨full, pos⟩
        = .ok (c.flags, ⟨full, pos + (putVarint c.flags).length⟩) :=
      get_u64_varint_put hf64 hdrop
    have hd1 := drop_of_drop_append hdrop
    have hO : get_u64_varint ⟨full, pos + (putVarint c.flags).length⟩
        = .ok (c.origLen, ⟨full,
            pos + (putVarint c.flags).length + (putVarint c.origLen).length⟩) :=
      get_u64_varint_put ho64 hd1
    have hd2 := drop_of_drop_append hd1
    have hC : get_u64_varint ⟨full,
        pos + (putVarint c.flags).length + (putVarint c.origLen).length⟩
        = .ok (c.clen, ⟨full, pos + (putVarint c.flags).length
            + (putVarint c.origLen).length + (putVarint c.clen).length⟩) :=
      get_u64_varint_put (by omega) hd2
    have hd3 := drop_of_drop_append hd2
    have hr3 := length_drop_of_append hd3
    have hpaylen : c.payload.length = c.clen := by
      simpa [WireChunk.framedLen, hcomp] using hpay
    have hcast : u64_as_i32_as_usize c.clen = c.clen := u64_as_i32_as_usize_small hc31
    have hrem : ¬ (Cursor.remaining ⟨full, pos⟩ = 0) := by
      have h1 := length_drop_of_append hdrop
      have h2 := putVarint_length_pos c.flags
      simp only [Cursor.remaining]
      omega
    have hguard : ¬ (c.clen > Cursor.remaining ⟨full, pos + (putVarint c.flags).length
        + (putVarint c.origLen).length + (putVarint c.clen).length⟩) := by
      simp only [Cursor.remaining]
      omega
    have hserlen : c.ser.length = (putVarint c.flags).length + (putVarint c.origLen).length
        + (putVarint c.clen).length + c.payload.length := by
      simp [WireChunk.ser, hcomp]
      omega
    rw [calcLoop, if_neg hrem]
    simp only [hF, hO, show (c.flags % 2 ^ 32 % 2 == 1) = c.isComp from rfl, hcomp,
      if_true, eq_self_iff_true, hC, hcast]
    rw [if_neg hguard]
    simp only [haddEq, Cursor.advance]
    rw [hserlen]
    congr 2
    omega
  | false =>
    have hdrop : full.drop pos = putVarint c.flags ++ (putVarint c.origLen ++
        (c.payload ++ tail)) := by
      simpa only [WireChunk.ser, hcomp, if_false, List.append_assoc,
        List.nil_append, Bool.false_eq_true] using hdrop0
    have hF : get_u64_varint ⟨full, pos⟩
        = .ok (c.flags, ⟨full, pos + (putVarint c.flags).length⟩) :=
      get_u64_varint_put hf64 hdrop
    have hd1 := drop_of_drop_append hdrop
    have hO : get_u64_varint ⟨full, pos + (putVarint c.flags).length⟩
        = .ok (c.origLen, ⟨full,
            pos + (putVarint c.flags).length + (putVarint c.origLen).length⟩) :=
      get_u64_varint_put ho64 hd1
    have hd2 := drop_of_drop_append hd1
    have hr2 := length_drop_of_append hd2
    have hpaylen : c.payload.length = c.origLen := by
      simpa [WireChunk.framedLen, hcomp] using hpay
    have hrem : ¬ (Cursor.remaining ⟨full, pos⟩ = 0) := by
      have h1 := length_drop_of_append hdrop
      have h2 := putVarint_length_pos c.flags
      simp only [Cursor.remaining]
      omega
    have hguard : ¬ (c.origLen > Cursor.remaining ⟨full, pos + (putVarint c.flags).length
        + (putVarint c.origLen).length⟩) := by
      simp only [Cursor.remaining]
      omega
    have hserlen : c.ser.length = (putVarint c.flags).length + (putVarint c.origLen).length
        + c.payload.length := by
      simp [WireChunk.ser, hcomp]
      omega
    rw [calcLoop, if_neg hrem]
    simp only [hF, hO, show (c.flags % 2 ^ 32 % 2 == 1) = c.isComp from rfl, hcomp,
      if_false, Bool.false_eq_true]
    rw [if_neg hguard]
    simp only [haddEq, Cursor.advance]
    rw [hserlen]
    congr 2
    omega

theorem ser_length_pos (c : WireChunk) : 0 < c.ser.length := by
  have h := putVarint_length_pos c.flags
  simp [WireChunk.ser]
  omega

theorem length_le_serChunks (cs : List WireChunk) : cs.length ≤ (serChunks cs).length := by
  induction cs with
  | nil => simp [serChunks]
  | cons c cs ih =>
    have h := ser_length_pos c
    simp only [serChunks, List.length_cons, List.length_append]
    omega

theorem calcLoop_done {f : Nat} {full : List Nat} {pos count pp : Nat}
    (hrem : Cursor.remaining ⟨full, pos⟩ = 0) (hf : 1 ≤ f) :
    calcLoop f ⟨full, pos⟩ count pp = .ok (count, ⟨full, pp⟩) := by
  obtain ⟨f1, rfl⟩ : ∃ f1, f = f1 + 1 := ⟨f - 1, by omega⟩
  rw [calcLoop, if_pos hrem]
  rfl

theorem calcLoop_serChunks :
    ∀ (cs : List WireChunk) (f : Nat) (full rest : List Nat) (pos count pp : Nat),
      (∀ c ∈ cs, c.wf) →
      full.drop pos = serChunks cs ++ rest →
      count + sumOrig cs < 2 ^ 64 →
      cs.length < f →
      calcLoop f ⟨full, pos⟩ count pp
        = calcLoop (f - cs.length) ⟨full, pos + (serChunks cs).length⟩
            (count + sumOrig cs) pp := by
  intro cs
  induction cs with
  | nil =>
    intro f full rest pos count pp hwf hdrop hsum hf
    simp [serChunks, sumOrig]
  | cons c cs ih =>
    intro f full rest pos count pp hwf hdrop hsum hf
    obtain ⟨f1, rfl⟩ : ∃ f1, f = f1 + 1 := ⟨f - 1, by omega⟩
    have hdrop1 : full.drop pos = c.ser ++ (serChunks cs ++ rest) := by
      simpa [serChunks, List.append_assoc] using hdrop
    have hsum0 : c.origLen + sumOrig cs = sumOrig (c :: cs) := by simp [sumOrig]
    have hsum1 : count + c.origLen < 2 ^ 64 := by omega
    rw [calcLoop_step (hwf c (by simp)) hdrop1 hsum1]
    have hdrop2 : full.drop (pos + c.ser.length) = serChunks cs ++ rest :=
      drop_of_drop_append hdrop1
    rw [ih f1 full rest (pos + c.ser.length) (count + c.origLen) pp
      (fun x hx => hwf x (by simp [hx])) hdrop2 (by omega)
      (by simp only [List.length_cons] at hf; omega)]
    have e1 : f1 - cs.length = f1 + 1 - (c :: cs).length := by
      simp only [List.length_cons]
      omega
    have e2 : pos + c.ser.length + (serChunks cs).length
        = pos + (serChunks (c :: cs)).length := by
      simp only [serChunks, List.length_append]
      omega
    have e3 : count + c.origLen + sumOrig cs = count + sumOrig (c :: cs) := by
      simp only [sumOrig]
      omega
    rw [e1, e2, e3]

theorem calc_dc_size_serChunks {cs : List WireChunk} (rest : List Nat)
    (hwf : ∀ c ∈ cs, c.wf) (hsum : sumOrig cs < 2 ^ 64) :
    calc_dc_size ⟨serChunks cs ++ rest, 0⟩
      = calcLoop ((serChunks cs ++ rest).length + 1 - cs.length)
          ⟨serChunks cs ++ rest, (serChunks cs).length⟩ (sumOrig cs) 0 := by
  unfold calc_dc_size
  have h := calcLoop_serChunks cs ((serChunks cs ++ rest).length + 1)
    (serChunks cs ++ rest) rest 0 0 0 hwf (by simp) (by omega)
    (by have h1 := length_le_serChunks cs; simp only [List.length_append]; omega)
  simpa [Cursor.remaining] using h

theorem calcLoop_succ_cases (f : Nat) (d : Cursor) (count pp : Nat) :
    calcLoop (f + 1) d count pp = .ok (count, ⟨d.data, pp⟩) ∨
    (∃ e, calcLoop (f + 1) d count pp = .error e) ∨
    (∃ (len count1 : Nat) (d3 : Cursor), d3.data = d.data ∧ d.pos < d3.pos ∧
      d3.pos ≤ d.data.length ∧ len ≤ d3.remaining ∧
      calcLoop (f + 1) d count pp = calcLoop f (d3.advance len) count1 pp) := by
  by_cases hrem : d.remaining = 0
  · left
    rw [calcLoop, if_pos hrem]
    rfl
  · cases hF : get_u64_varint d with
    | error e =>
      right; left
      exact ⟨ChunkResult.ofVarIntError e, by rw [calcLoop, if_neg hrem]; simp [hF]⟩
    | ok p =>
      obtain ⟨flags_raw, d1⟩ := p
      obtain ⟨hFd, hFp, hFl⟩ := get_u64_varint_ok_sound hF
      cases hO : get_u64_varint d1 with
      | error e =>
        right; left
        exact ⟨ChunkResult.ofVarIntError e, by rw [calcLoop, if_neg hrem]; simp [hF, hO]⟩
      | ok q =>
        obtain ⟨orig, d2⟩ := q
        obtain ⟨hOd, hOp, hOl⟩ := get_u64_varint_ok_sound hO
        cases hic : (flags_raw % 2 ^ 32 % 2 == 1) with
        | true =>
          cases hC : get_u64_varint d2 with
          | error e =>
            right; left
            refine ⟨ChunkResult.ofVarIntError e, ?_⟩
            rw [calcLoop, if_neg hrem]
            simp only [hF, hO, hic, if_true, eq_self_iff_true, hC]
          | ok r =>
            obtain ⟨l, d4⟩ := r
            obtain ⟨hCd, hCp, hCl⟩ := get_u64_varint_ok_sound hC
            by_cases hg : u64_as_i32_as_usize l > d4.remaining
            · right; left
              refine ⟨.overflow, ?_⟩
              rw [calcLoop, if_neg hrem]
              simp only [hF, hO, hic, if_true, eq_self_iff_true, hC]
              rw [if_pos hg]
            · cases hAdd : checkedAddUsize count orig with
              | none =>
                right; left
                refine ⟨.overflow, ?_⟩
                rw [calcLoop, if_neg hrem]
                simp only [hF, hO, hic, if_true, eq_self_iff_true, hC]
                rw [if_neg hg, hAdd]
              | some count1 =>
                right; right
                refine ⟨u64_as_i32_as_usize l, count1, d4,
                  by rw [hCd, hOd, hFd], by omega, by rw [hOd, hFd] at hCl; exact hCl,
                  by omega, ?_⟩
                rw [calcLoop, if_neg hrem]
                simp only [hF, hO, hic, if_true, eq_self_iff_true, hC]
                rw [if_neg hg, hAdd]
        | false =>
          by_cases hg : orig > d2.remaining
          · right; left
            refine ⟨.overflow, ?_⟩
            rw [calcLoop, if_neg hrem]
            simp only [hF, hO, hic, if_false, Bool.false_eq_true]
            rw [if_pos hg]
          · cases hAdd : checkedAddUsize count orig with
            | none =>
              right; left
              refine ⟨.overflow, ?_⟩
              rw [calcLoop, if_neg hrem]
              simp only [hF, hO, hic, if_false, Bool.false_eq_true]
              rw [if_neg hg, hAdd]
            | some count1 =>
              right; right
              refine ⟨orig, count1, d2,
                by rw [hOd, hFd], by omega, by rw [hFd] at hOl; exact hOl,
                by omega, ?_⟩
              rw [calcLoop, if_neg hrem]
              simp only [hF, hO, hic, if_false, Bool.false_eq_true]
              rw [if_neg hg, hAdd]

theorem calcLoop_ok_cursor_aux :
    ∀ (f : Nat) (d : Cursor) (count pp n : Nat) (c1 : Cursor),
      calcLoop f d count pp = .ok (n, c1) → c1 = ⟨d.data, pp⟩ := by
  intro f
  induction f with
  | zero => intro d count pp n c1 h; exact absurd h (by simp [calcLoop])
  | succ f ih =>
    intro d count pp n c1 h
    rcases calcLoop_succ_cases f d count pp with hc | ⟨e, hc⟩ | ⟨len, count1, d3, hd, _, _, _, hc⟩
    · rw [hc] at h
      simp only [Except.ok.injEq, Prod.mk.injEq] at h
      exact h.2.symm
    · rw [hc] at h
      exact absurd h (by simp)
    · rw [hc] at h
      have h1 := ih (d3.advance len) count1 pp n c1 h
      rw [h1]
      simp only [Cursor.advance]
      rw [hd]

/-- C5: for every input and every starting cursor position, when the Size
Calculator (`calc_dc_size`) returns successfully, the returned input cursor's
position equals its position at entry and the underlying data is unchanged:
the successful pass is a pure lookahead. -/
theorem calc_dc_size_pure_lookahead {c : Cursor} {n : Nat} {c1 : Cursor}
    (h : calc_dc_size c = .ok (n, c1)) : c1.pos = c.pos ∧ c1.data = c.data := by
  have h1 := calcLoop_ok_cursor_aux (c.remaining + 1) c 0 c.pos n c1 h
  rw [h1]
  exact ⟨rfl, rfl⟩

/-- Witness for C5 at a concrete input: a cursor starting at position 1 over a
four-byte buffer holding one uncompressed chunk is restored to position 1. -/
theorem calc_dc_size_pure_lookahead_witness :
    ∃ c1 : Cursor, calc_dc_size ⟨[9, 0, 1, 65], 1⟩ = .ok (1, c1) ∧
      c1.pos = 1 ∧ c1.data = [9, 0, 1, 65] := by
  have h := calc_dc_size_pure_lookahead
    (show calc_dc_size ⟨[9, 0, 1, 65], 1⟩ = .ok (1, ⟨[9, 0, 1, 65], 1⟩) from rfl)
  exact ⟨⟨[9, 0, 1, 65], 1⟩, rfl, h.1, h.2⟩

/-- C3: for every stream whose size pass succeeds with total `n` and whose
fill pass succeeds on the exactly-sized buffer (a well-formed stream of true
decoded size `n`), `decode_stream` with `max_output = k` fails with
`Overflow n k` whenever `n > k` and succeeds whenever `n ≤ k`; in particular
`n = k` succeeds. -/
theorem decode_stream_max_output_boundary
    (dec : List Nat → Nat → Except DecompressErr (List Nat)) (c c1 : Cursor)
    (n k : Nat) (out : List Nat)
    (hc : calc_dc_size c = .ok (n, c1))
    (hf : fillLoop dec (c1.remaining + 1) ⟨c1, ⟨List.replicate n 0, 0⟩⟩ = .ok out) :
    (n > k → decode_stream dec c k = .error (.overflow n k)) ∧
    (n ≤ k → decode_stream dec c k = .ok out) := by
  constructor
  · intro hgt
    unfold decode_stream
    simp only [hc]
    rw [if_pos hgt]
  · intro hle
    unfold decode_stream
    simp only [hc]
    rw [if_neg (by omega)]
    simp only [hf]

/-- Witness for C3 at a concrete input: the single-chunk stream `[0, 1, 65]`
has true decoded size 1; decoding with `max_output = 1` (the boundary)
succeeds with `[65]` and with `max_output = 0` fails with `Overflow 1 0`. -/
theorem decode_stream_max_output_boundary_witness :
    decode_stream (fun cv _ => .ok cv) ⟨[0, 1, 65], 0⟩ 1 = .ok [65] ∧
    decode_stream (fun cv _ => .ok cv) ⟨[0, 1, 65], 0⟩ 0 = .error (.overflow 1 0) := by
  have h1 := decode_stream_max_output_boundary (fun cv _ => .ok cv)
    ⟨[0, 1, 65], 0⟩ ⟨[0, 1, 65], 0⟩ 1 1 [65] rfl rfl
  have h2 := decode_stream_max_output_boundary (fun cv _ => .ok cv)
    ⟨[0, 1, 65], 0⟩ ⟨[0, 1, 65], 0⟩ 1 0 [65] rfl rfl
  exact ⟨h1.2 (by norm_num), h2.1 (by norm_num)⟩

/-- C2: refuted on the code.  On the seven-byte stream
`[0x01, 0x00, 0x80, 0x80, 0x80, 0x80, 0x10]` (one chunk: flags = Compressed,
original_length = 0, compressed_length = 2 to the 32) the Size-Calculator
pass and the fill pass parse the same bytes but compute different framed
payload lengths: `calc_dc_size` sends the compressed-length value through the
`as i32 as usize` cast (src line 124), obtains framed length 0 and accepts
the stream, while `get_chunk` casts it `as usize` (src line 150), obtains
2 to the 32 and fails with Overflow on the very same bytes, whatever the
decompressor is. -/
theorem size_pass_and_fill_pass_disagree :
    calc_dc_size ⟨[1, 0, 128, 128, 128, 128, 16], 0⟩
      = .ok (0, ⟨[1, 0, 128, 128, 128, 128, 16], 0⟩) ∧
    (∀ dec, get_chunk dec ⟨⟨[1, 0, 128, 128, 128, 128, 16], 0⟩, ⟨[], 0⟩⟩
      = .error .overflow) ∧
    u64_as_i32_as_usize (2 ^ 32) = 0 := by
  exact ⟨rfl, fun dec => rfl, rfl⟩

theorem uncheckedLoop_succ_cases (f : Nat) (d : Cursor) (count pp : Nat) :
    (calcLoopUnchecked (f + 1) d count pp = .ok (count, ⟨d.data, pp⟩) ∧
     calcLoop (f + 1) d count pp = .ok (count, ⟨d.data, pp⟩)) ∨
    (∃ e, calcLoopUnchecked (f + 1) d count pp = .error e ∧
      calcLoop (f + 1) d count pp = .error e) ∨
    (∃ (len orig : Nat) (d3 : Cursor),
      calcLoopUnchecked (f + 1) d count pp
        = calcLoopUnchecked f (d3.advance len) (count + orig) pp ∧
      (count + orig < 2 ^ 64 →
        calcLoop (f + 1) d count pp = calcLoop f (d3.advance len) (count + orig) pp) ∧
      (2 ^ 64 ≤ count + orig → calcLoop (f + 1) d count pp = .error .overflow)) := by
  by_cases hrem : d.remaining = 0
  · left
    constructor
    · rw [calcLoopUnchecked, if_pos hrem]; rfl
    · rw [calcLoop, if_pos hrem]; rfl
  · cases hF : get_u64_varint d with
    | error e =>
      right; left
      refine ⟨ChunkResult.ofVarIntError e, ?_, ?_⟩
      · rw [calcLoopUnchecked, if_neg hrem]; simp [hF]
      · rw [calcLoop, if_neg hrem]; simp [hF]
    | ok p =>
      obtain ⟨flags_raw, d1⟩ := p
      cases hO : get_u64_varint d1 with
      | error e =>
        right; left
        refine ⟨ChunkResult.ofVarIntError e, ?_, ?_⟩
        · rw [calcLoopUnchecked, if_neg hrem]; simp [hF, hO]
        · rw [calcLoop, if_neg hrem]; simp [hF, hO]
      | ok q =>
        obtain ⟨orig, d2⟩ := q
        cases hic : (flags_raw % 2 ^ 32 % 2 == 1) with
        | true =>
          cases hC : get_u64_varint d2 with
          | error e =>
            right; left
            refine ⟨ChunkResult.ofVarIntError e, ?_, ?_⟩
            · rw [calcLoopUnchecked, if_neg hrem]
              simp only [hF, hO, hic, if_true, eq_self_iff_true, hC]
            · rw [calcLoop, if_neg hrem]
              simp only [hF, hO, hic, if_true, eq_self_iff_true, hC]
          | ok r =>
            obtain ⟨l, d4⟩ := r
            by_cases hg : u64_as_i32_as_usize l > d4.remaining
            · right; left
              refine ⟨.overflow, ?_, ?_⟩
              · rw [calcLoopUnchecked, if_neg hrem]
                simp only [hF, hO, hic, if_true, eq_self_iff_true, hC]
                rw [if_pos hg]
              · rw [calcLoop, if_neg hrem]
                simp only [hF, hO, hic, if_true, eq_self_iff_true, hC]
                rw [if_pos hg]
            · right; right
              refine ⟨u64_as_i32_as_usize l, orig, d4, ?_, ?_, ?_⟩
              · rw [calcLoopUnchecked, if_neg hrem]
                simp only [hF, hO, hic, if_true, eq_self_iff_true, hC]
                rw [if_neg hg]
              · intro hco
                rw [calcLoop, if_neg hrem]
                simp only [hF, hO, hic, if_true, eq_self_iff_true, hC]
                rw [if_neg hg]
                have hsome : checkedAddUsize count orig = some (count + orig) := by
                  unfold checkedAddUsize; rw [if_pos hco]
                rw [hsome]
              · intro hco
                rw [calcLoop, if_neg hrem]
                simp only [hF, hO, hic, if_true, eq_self_iff_true, hC]
                rw [if_neg hg]
                have hnone : checkedAddUsize count orig = none := by
                  unfold checkedAddUsize; rw [if_neg (by omega)]
                rw [hnone]
        | false =>
          by_cases hg : orig > d2.remaining
          · right; left
            refine ⟨.overflow, ?_, ?_⟩
            · rw [calcLoopUnchecked, if_neg hrem]
              simp only [hF, hO, hic, if_false, Bool.false_eq_true]
              rw [if_pos hg]
            · rw [calcLoop, if_neg hrem]
              simp only [hF, hO, hic, if_false, Bool.false_eq_true]
              rw [if_pos hg]
          · right; right
            refine ⟨orig, orig, d2, ?_, ?_, ?_⟩
            · rw [calcLoopUnchecked, if_neg hrem]
              simp only [hF, hO, hic, if_false, Bool.false_eq_true]
              rw [if_neg hg]
            · intro hco
              rw [calcLoop, if_neg hrem]
              simp only [hF, hO, hic, if_false, Bool.false_eq_true]
              rw [if_neg hg]
              have hsome : checkedAddUsize count orig = some (count + orig) := by
                unfold checkedAddUsize; rw [if_pos hco]
              rw [hsome]
            · intro hco
              rw [calcLoop, if_neg hrem]
              simp only [hF, hO, hic, if_false, Bool.false_eq_true]
              rw [if_neg hg]
              have hnone : checkedAddUsize count orig = none := by
                unfold checkedAddUsize; rw [if_neg (by omega)]
              rw [hnone]

theorem calcLoopUnchecked_mono :
    ∀ (f : Nat) (d : Cursor) (count pp S : Nat) (c1 : Cursor),
      calcLoopUnchecked f d count pp = .ok (S, c1) → count ≤ S := by
  intro f
  induction f with
  | zero => intro d count pp S c1 h; exact absurd h (by simp [calcLoopUnchecked])
  | succ f ih =>
    intro d count pp S c1 h
    rcases uncheckedLoop_succ_cases f d count pp with ⟨hu, _⟩ | ⟨e, hu, _⟩
      | ⟨len, orig, d3, hu, _, _⟩
    · rw [hu] at h
      simp only [Except.ok.injEq, Prod.mk.injEq] at h
      omega
    · rw [hu] at h
      exact absurd h (by simp)
    · rw [hu] at h
      have h1 := ih _ _ _ _ _ h
      omega

theorem calcLoop_vs_unchecked :
    ∀ (f : Nat) (d : Cursor) (count pp S : Nat) (c1 : Cursor),
      calcLoopUnchecked f d count pp = .ok (S, c1) → count < 2 ^ 64 →
      (S < 2 ^ 64 → calcLoop f d count pp = .ok (S, c1)) ∧
      (2 ^ 64 ≤ S → calcLoop f d count pp = .error .overflow) := by
  intro f
  induction f with
  | zero => intro d count pp S c1 h; exact absurd h (by simp [calcLoopUnchecked])
  | succ f ih =>
    intro d count pp S c1 h hcount
    rcases uncheckedLoop_succ_cases f d count pp with ⟨hu, hk⟩ | ⟨e, hu, _⟩
      | ⟨len, orig, d3, hu, hk1, hk2⟩
    · rw [hu] at h
      simp only [Except.ok.injEq, Prod.mk.injEq] at h
      obtain ⟨hS, hc1⟩ := h
      constructor
      · intro _
        rw [hk, hS, hc1]
      · intro habs
        omega
    · rw [hu] at h
      exact absurd h (by simp)
    · rw [hu] at h
      by_cases hco : count + orig < 2 ^ 64
      · have hih := ih _ _ _ _ _ h hco
        exact ⟨fun hS => by rw [hk1 hco]; exact hih.1 hS,
          fun hS => by rw [hk1 hco]; exact hih.2 hS⟩
      · have hmono := calcLoopUnchecked_mono f _ _ _ _ _ h
        exact ⟨fun h1 => absurd h1 (by omega), fun _ => hk2 (by omega)⟩

/-- C4: the Size-Calculator accumulates the declared original lengths with
overflow-checked addition.  For every input whose parse succeeds under exact
(unbounded) accumulation with total `S`: when `S` does not fit a 64-bit usize,
`calc_dc_size` fails with `Overflow` instead of wrapping around or
saturating; when `S` fits, `calc_dc_size` returns exactly `S`. -/
theorem calc_dc_size_checked_accumulation {c c1 : Cursor} {S : Nat}
    (h : calcSizeUnchecked c = .ok (S, c1)) :
    (2 ^ 64 ≤ S → calc_dc_size c = .error .overflow) ∧
    (S < 2 ^ 64 → calc_dc_size c = .ok (S, c1)) := by
  have h1 := calcLoop_vs_unchecked (c.remaining + 1) c 0 c.pos S c1 h (by norm_num)
  exact ⟨h1.2, h1.1⟩

/-- Witness for C4 at a concrete input: two compressed chunks each declaring
original_length 2^64 - 1 (and compressed_length 0 with empty payload) give a
declared total of 2^65 - 2, past the maximum representable usize, and
`calc_dc_size` fails with Overflow. -/
theorem calc_dc_size_checked_accumulation_witness :
    calc_dc_size ⟨[1, 255, 255, 255, 255, 255, 255, 255, 255, 255, 1, 0,
      1, 255, 255, 255, 255, 255, 255, 255, 255, 255, 1, 0], 0⟩
      = .error .overflow := by
  have h := calc_dc_size_checked_accumulation
    (show calcSizeUnchecked ⟨[1, 255, 255, 255, 255, 255, 255, 255, 255, 255, 1, 0,
        1, 255, 255, 255, 255, 255, 255, 255, 255, 255, 1, 0], 0⟩
      = .ok (2 ^ 65 - 2, ⟨[1, 255, 255, 255, 255, 255, 255, 255, 255, 255, 1, 0,
        1, 255, 255, 255, 255, 255, 255, 255, 255, 255, 1, 0], 0⟩) from rfl)
  exact h.1 (by norm_num)

theorem drop_append_len (l t : List Nat) (n : Nat) :
    (l ++ t).drop (l.length + n) = t.drop n := by
  rw [← List.drop_drop, List.drop_left]

theorem writeAt_shape (done w : List Nat) (k : Nat) :
    writeAt (done ++ List.replicate k 0) done.length w
      = done ++ w ++ List.replicate (k - w.length) 0 := by
  unfold writeAt
  rw [List.take_left, drop_append_len, List.drop_replicate, List.append_assoc]

theorem get_chunk_step {c : WireChunk} {w tail full : List Nat} {pos : Nat}
    {dec : List Nat → Nat → Except DecompressErr (List Nat)}
    (done : List Nat) (extra : Nat)
    (hwf : c.wf) (hdec : DecodesTo dec c w)
    (hdrop0 : full.drop pos = c.ser ++ tail) :
    get_chunk dec ⟨⟨full, pos⟩, ⟨done ++ List.replicate (c.origLen + extra) 0, done.length⟩⟩
      = .ok (false, ⟨⟨full, pos + c.ser.length⟩,
          ⟨done ++ w ++ List.replicate extra 0, done.length + c.origLen⟩⟩) := by
  obtain ⟨hf64, ho64, hc31, hpay⟩ := hwf
  obtain ⟨hwlen, hdec2⟩ := hdec
  have houtrem : Cursor.remaining ⟨done ++ List.replicate (c.origLen + extra) 0, done.length⟩
      = c.origLen + extra := by
    simp [Cursor.remaining]
  cases hcomp : c.isComp with
  | true =>
    have hdrop : full.drop pos = putVarint c.flags ++ (putVarint c.origLen ++
        (putVarint c.clen ++ (c.payload ++ tail))) := by
      simpa only [WireChunk.ser, hcomp, if_true, List.append_assoc] using hdrop0
    have hF : get_u64_varint ⟨full, pos⟩
        = .ok (c.flags, ⟨full, pos + (putVarint c.flags).length⟩) :=
      get_u64_varint_put hf64 hdrop
    have hd1 := drop_of_drop_append hdrop
    have hO : get_u64_varint ⟨full, pos + (putVarint c.flags).length⟩
        = .ok (c.origLen, ⟨full,
            pos + (putVarint c.flags).length + (putVarint c.origLen).length⟩) :=
      get_u64_varint_put ho64 hd1
    have hd2 := drop_of_drop_append hd1
    have hC : get_u64_varint ⟨full,
        pos + (putVarint c.flags).length + (putVarint c.origLen).length⟩
        = .ok (c.clen, ⟨full, pos + (putVarint c.flags).length
            + (putVarint c.origLen).length + (putVarint c.clen).length⟩) :=
      get_u64_varint_put (by omega) hd2
    have hd3 := drop_of_drop_append hd2
    have hr3 := length_drop_of_append hd3
    have hpaylen : c.payload.length = c.clen := by
      simpa [WireChunk.framedLen, hcomp] using hpay
    have hrem : ¬ (Cursor.remaining ⟨full, pos⟩ = 0) := by
      have h1 := length_drop_of_append hdrop
      have h2 := putVarint_length_pos c.flags
      simp only [Cursor.remaining]
      omega
    have hguard : ¬ (c.clen > Cursor.remaining ⟨full, pos + (putVarint c.flags).length
        + (putVarint c.origLen).length + (putVarint c.clen).length⟩ ∨
        c.origLen > Cursor.remaining
          ⟨done ++ List.replicate (c.origLen + extra) 0, done.length⟩) := by
      rw [houtrem]
      simp only [Cursor.remaining]
      push_neg
      omega
    have hcv : (Cursor.chunk ⟨full, pos + (putVarint c.flags).length
        + (putVarint c.origLen).length + (putVarint c.clen).length⟩).take c.clen
        = c.payload := by
      simp only [Cursor.chunk, hd3]
      rw [← hpaylen, List.take_left]
    have hdecEq : dec c.payload c.origLen = .ok w := by
      simpa [hcomp] using hdec2
    have hwrite : writeAt (done ++ List.replicate (c.origLen + extra) 0) done.length w
        = done ++ w ++ List.replicate extra 0 := by
      rw [writeAt_shape done w (c.origLen + extra), hwlen]
      simp
    have hserlen : c.ser.length = (putVarint c.flags).length + (putVarint c.origLen).length
        + (putVarint c.clen).length + c.payload.length := by
      simp [WireChunk.ser, hcomp]
      omega
    rw [get_chunk, if_neg hrem]
    simp only [hF, hO, show (c.flags % 2 ^ 32 % 2 == 1) = c.isComp from rfl, hcomp,
      if_true, eq_self_iff_true, hC]
    rw [if_neg hguard]
    simp only [hcv, hdecEq, hwlen, ne_eq, not_true_eq_false, if_neg not_false]
    simp only [if_false, Cursor.advance, hwrite]
    rw [hserlen]
    have hpos : pos + (putVarint c.flags).length + (putVarint c.origLen).length
        + (putVarint c.clen).length + c.clen
        = pos + ((putVarint c.flags).length + (putVarint c.origLen).length
          + (putVarint c.clen).length + c.payload.length) := by omega
    rw [hpos]
  | false =>
    have hdrop : full.drop pos = putVarint c.flags ++ (putVarint c.origLen ++
        (c.payload ++ tail)) := by
      simpa only [WireChunk.ser, hcomp, if_false, List.append_assoc,
        List.nil_append, Bool.false_eq_true] using hdrop0
    have hF : get_u64_varint ⟨full, pos⟩
        = .ok (c.flags, ⟨full, pos + (putVarint c.flags).length⟩) :=
      get_u64_varint_put hf64 hdrop
    have hd1 := drop_of_drop_append hdrop
    have hO : get_u64_varint ⟨full, pos + (putVarint c.flags).length⟩
        = .ok (c.origLen, ⟨full,
            pos + (putVarint c.flags).length + (putVarint c.origLen).length⟩) :=
      get_u64_varint_put ho64 hd1
    have hd2 := drop_of_drop_append hd1
    have hr2 := length_drop_of_append hd2
    have hpaylen : c.payload.length = c.origLen := by
      simpa [WireChunk.framedLen, hcomp] using hpay
    have hweq : w = c.payload := by simpa [hcomp] using hdec2
    have hrem : ¬ (Cursor.remaining ⟨full, pos⟩ = 0) := by
      have h1 := length_drop_of_append hdrop
      have h2 := putVarint_length_pos c.flags
      simp only [Cursor.remaining]
      omega
    have hguard : ¬ (c.origLen > Cursor.remaining ⟨full, pos + (putVarint c.flags).length
        + (putVarint c.origLen).length⟩ ∨
        c.origLen > Cursor.remaining
          ⟨done ++ List.replicate (c.origLen + extra) 0, done.length⟩) := by
      rw [houtrem]
      simp only [Cursor.remaining]
      push_neg
      omega
    have hcv : (Cursor.chunk ⟨full, pos + (putVarint c.flags).length
        + (putVarint c.origLen).length⟩).take c.origLen = c.payload := by
      simp only [Cursor.chunk, hd2]
      rw [← hpaylen, List.take_left]
    have hwrite : writeAt (done ++ List.replicate (c.origLen + extra) 0) done.length c.payload
        = done ++ w ++ List.replicate extra 0 := by
      rw [writeAt_shape done c.payload (c.origLen + extra), hpaylen, hweq]
      simp
    have hserlen : c.ser.length = (putVarint c.flags).length + (putVarint c.origLen).length
        + c.payload.length := by
      simp [WireChunk.ser, hcomp]
      omega
    rw [get_chunk, if_neg hrem]
    simp only [hF, hO, show (c.flags % 2 ^ 32 % 2 == 1) = c.isComp from rfl, hcomp,
      if_false, Bool.false_eq_true]
    rw [if_neg hguard]
    simp only [hcv, Cursor.advance, hwrite]
    rw [hserlen]
    have hpos : pos + (putVarint c.flags).length + (putVarint c.origLen).length + c.origLen
        = pos + ((putVarint c.flags).length + (putVarint c.origLen).length
          + c.payload.length) := by omega
    rw [hpos]

theorem fillLoop_done {dec : List Nat → Nat → Except DecompressErr (List Nat)}
    {f : Nat} {st : StreamDecodeState}
    (hrem : st.input.remaining = 0) (hf : 1 ≤ f) :
    fillLoop dec f st = .ok st.output.data := by
  obtain ⟨f1, rfl⟩ : ∃ f1, f = f1 + 1 := ⟨f - 1, by omega⟩
  have hg : get_chunk dec st = .ok (true, st) := by
    rw [get_chunk, if_pos hrem]
  rw [fillLoop]
  simp only [hg]

theorem fillLoop_serChunks
    {dec : List Nat → Nat → Except DecompressErr (List Nat)}
    {cs : List WireChunk} {ws : List (List Nat)}
    (hrel : List.Forall₂ (DecodesTo dec) cs ws) :
    ∀ (f : Nat) (full rest done : List Nat) (pos extra : Nat),
      (∀ c ∈ cs, c.wf) →
      full.drop pos = serChunks cs ++ rest →
      cs.length < f →
      fillLoop dec f ⟨⟨full, pos⟩,
          ⟨done ++ List.replicate (sumOrig cs + extra) 0, done.length⟩⟩
        = fillLoop dec (f - cs.length) ⟨⟨full, pos + (serChunks cs).length⟩,
            ⟨done ++ wsJoin ws ++ List.replicate extra 0, done.length + sumOrig cs⟩⟩ := by
  induction hrel with
  | nil =>
    intro f full rest done pos extra hwf hdrop hf
    simp [serChunks, sumOrig, wsJoin]
  | cons hpair hrel2 ih =>
    rename_i c w cs2 ws2
    intro f full rest done pos extra hwf hdrop hf
    obtain ⟨f1, rfl⟩ : ∃ f1, f = f1 + 1 := ⟨f - 1, by omega⟩
    have hdrop1 : full.drop pos = c.ser ++ (serChunks cs2 ++ rest) := by
      simpa [serChunks, List.append_assoc] using hdrop
    have hshape : sumOrig (c :: cs2) + extra = c.origLen + (sumOrig cs2 + extra) := by
      simp [sumOrig]
      omega
    have hstep := get_chunk_step done (sumOrig cs2 + extra)
      (hwf c (by simp)) hpair hdrop1
    rw [fillLoop, hshape]
    simp only [hstep]
    have hwl : w.length = c.origLen := hpair.1
    have hbuf : done ++ w ++ List.replicate (sumOrig cs2 + extra) 0
        = (done ++ w) ++ List.replicate (sumOrig cs2 + extra) 0 := by
      simp [List.append_assoc]
    have hpos2 : done.length + c.origLen = (done ++ w).length := by
      simp [List.length_append, hwl]
    rw [hbuf, hpos2]
    rw [ih f1 full rest (done ++ w) (pos + c.ser.length) extra
      (fun x hx => hwf x (by simp [hx])) (drop_of_drop_append hdrop1)
      (by simp only [List.length_cons] at hf; omega)]
    have e1 : f1 - cs2.length = f1 + 1 - (c :: cs2).length := by
      simp only [List.length_cons]
      omega
    have e2 : pos + c.ser.length + (serChunks cs2).length
        = pos + (serChunks (c :: cs2)).length := by
      simp only [serChunks, List.length_append]
      omega
    have e3 : (done ++ w) ++ wsJoin ws2 ++ List.replicate extra 0
        = done ++ wsJoin (w :: ws2) ++ List.replicate extra 0 := by
      simp [wsJoin, List.append_assoc]
    have e4 : (done ++ w).length + sumOrig cs2 = done.length + sumOrig (c :: cs2) := by
      simp [sumOrig, List.length_append, hwl]
      omega
    rw [e1, e2, e3, e4]

theorem wsJoin_length {dec : List Nat → Nat → Except DecompressErr (List Nat)} :
    ∀ {cs : List WireChunk} {ws : List (List Nat)},
      List.Forall₂ (DecodesTo dec) cs ws → (wsJoin ws).length = sumOrig cs := by
  intro cs ws hrel
  induction hrel with
  | nil => simp [wsJoin, sumOrig]
  | cons hpair hrel2 ih =>
    simp only [wsJoin, sumOrig, List.length_append, ih, hpair.1]

theorem decode_stream_serChunks
    {dec : List Nat → Nat → Except DecompressErr (List Nat)}
    {cs : List WireChunk} {ws : List (List Nat)} {k : Nat}
    (hrel : List.Forall₂ (DecodesTo dec) cs ws)
    (hwf : ∀ c ∈ cs, c.wf) (hsum : sumOrig cs < 2 ^ 64) (hk : sumOrig cs ≤ k) :
    decode_stream dec ⟨serChunks cs, 0⟩ k = .ok (wsJoin ws) := by
  have hcalc0 := calc_dc_size_serChunks [] hwf hsum
  rw [List.append_nil] at hcalc0
  have hfuel : 1 ≤ (serChunks cs).length + 1 - cs.length := by
    have h1 := length_le_serChunks cs
    omega
  have hdone : Cursor.remaining ⟨serChunks cs, (serChunks cs).length⟩ = 0 := by
    simp [Cursor.remaining]
  have hcalc : calc_dc_size ⟨serChunks cs, 0⟩ = .ok (sumOrig cs, ⟨serChunks cs, 0⟩) := by
    rw [hcalc0, calcLoop_done hdone hfuel]
  unfold decode_stream
  simp only [hcalc]
  rw [if_neg (by omega)]
  have hrem0 : Cursor.remaining ⟨serChunks cs, 0⟩ = (serChunks cs).length := by
    simp [Cursor.remaining]
  have hfill := fillLoop_serChunks hrel ((serChunks cs).length + 1)
    (serChunks cs) [] [] 0 0 hwf (by simp)
    (by have h1 := length_le_serChunks cs; omega)
  simp only [List.nil_append, List.length_nil, Nat.add_zero, Nat.zero_add,
    List.replicate_zero, List.append_nil] at hfill
  rw [hrem0, hfill, fillLoop_done hdone (by have h1 := length_le_serChunks cs; omega)]

/-- C8: every hand-built single-chunk stream whose flags have the Compressed
bit unset (any other flag bits are allowed) and whose payload is laid out on
the wire with exactly `original_length` bytes decodes to a verbatim copy of
that payload, for any `max_output` at least the payload length and any
decompressor (which is never consulted). -/
theorem uncompressed_chunk_verbatim
    (dec : List Nat → Nat → Except DecompressErr (List Nat))
    (flags k : Nat) (p : List Nat)
    (hbit : flags % 2 ^ 32 % 2 = 0) (hf : flags < 2 ^ 64)
    (hp : p.length < 2 ^ 64) (hk : p.length ≤ k) :
    decode_stream dec ⟨putVarint flags ++ putVarint p.length ++ p, 0⟩ k = .ok p := by
  have hic : WireChunk.isComp ⟨flags, p.length, 0, p⟩ = false := by
    simp only [WireChunk.isComp]
    rw [hbit]
    decide
  have hwf : ∀ c ∈ [(⟨flags, p.length, 0, p⟩ : WireChunk)], c.wf := by
    intro c hc
    simp only [List.mem_singleton] at hc
    subst hc
    exact ⟨hf, hp, by norm_num, by simp [WireChunk.framedLen, hic]⟩
  have hrel : List.Forall₂ (DecodesTo dec) [⟨flags, p.length, 0, p⟩] [p] :=
    List.Forall₂.cons ⟨rfl, by simp [DecodesTo, hic]⟩ List.Forall₂.nil
  have h := decode_stream_serChunks (k := k) hrel hwf
    (by simp only [sumOrig]; omega) (by simp only [sumOrig]; omega)
  simpa [serChunks, WireChunk.ser, hic, wsJoin] using h

/-- Witness for C8 at a concrete input: the stream `[2, 1, 42]` (flags with
only the reserved Passes bit set, original_length 1, one payload byte)
decodes to `[42]`. -/
theorem uncompressed_chunk_verbatim_witness :
    decode_stream (fun cv _ => .ok cv) ⟨[2, 1, 42], 0⟩ 1 = .ok [42] := by
  have h := uncompressed_chunk_verbatim (fun cv _ => .ok cv) 2 1 [42]
    (by norm_num) (by norm_num) (by norm_num) (by norm_num)
  exact h

/-- C10: in the fill pass, whenever the combined Overflow guard of
`get_chunk` passes, every subsequent slice index is in bounds: the framed
length does not exceed the bytes after the cursor so the input slice
`[..length]` is well defined and exactly `length` bytes, the write region
`pos + original_length` stays within the output buffer (the sum is exact, so
it cannot overflow), and in the uncompressed case the copied slice has
exactly the destination length, so `get_chunk` completes the copy without
any out-of-bounds access.  The header values are fixed by the same varint
reads `get_chunk` performs. -/
theorem get_chunk_overflow_guard_bounds
    (dec : List Nat → Nat → Except DecompressErr (List Nat))
    (st : StreamDecodeState) (flags_raw origLen lenRaw length : Nat)
    (i1 i2 i3 : Cursor) (compressed : Bool)
    (hcomp : compressed = (flags_raw % 2 ^ 32 % 2 == 1))
    (h1 : get_u64_varint st.input = .ok (flags_raw, i1))
    (h2 : get_u64_varint i1 = .ok (origLen, i2))
    (h3 : if compressed then get_u64_varint i2 = .ok (lenRaw, i3) ∧ length = lenRaw
          else i3 = i2 ∧ length = origLen)
    (hout : st.output.pos ≤ st.output.data.length)
    (hguard : ¬ (length > i3.remaining ∨ origLen > st.output.remaining)) :
    length ≤ i3.remaining ∧
    (i3.chunk.take length).length = length ∧
    st.output.pos + origLen ≤ st.output.data.length ∧
    (compressed = false → (i3.chunk.take length).length = origLen) ∧
    (compressed = false →
      get_chunk dec st = .ok (false, ⟨i3.advance length,
        ⟨writeAt st.output.data st.output.pos (i3.chunk.take length),
         st.output.pos + origLen⟩⟩)) := by
  push_neg at hguard
  obtain ⟨hlen, horig⟩ := hguard
  have hi3 : i3.pos ≤ i3.data.length := by
    cases hcb : compressed with
    | true =>
      rw [hcb] at h3
      simp only [if_true] at h3
      obtain ⟨hdd, _, hle⟩ := get_u64_varint_ok_sound h3.1
      rw [hdd]
      exact hle
    | false =>
      rw [hcb] at h3
      simp only [if_false, Bool.false_eq_true] at h3
      rw [h3.1]
      obtain ⟨hdd, _, hle⟩ := get_u64_varint_ok_sound h2
      rw [hdd]
      exact hle
  have hchunklen : (i3.chunk.take length).length = length := by
    simp only [Cursor.chunk, List.length_take, List.length_drop]
    simp only [Cursor.remaining] at hlen
    omega
  have hwr : st.output.pos + origLen ≤ st.output.data.length := by
    simp only [Cursor.remaining] at horig
    omega
  refine ⟨hlen, hchunklen, hwr, fun hcf => ?_, fun hcf => ?_⟩
  · rw [hcf] at h3
    simp only [if_false, Bool.false_eq_true] at h3
    rw [h3.2]
    rw [h3.2] at hchunklen
    exact hchunklen
  · rw [hcf] at h3 hcomp
    simp only [if_false, Bool.false_eq_true] at h3
    obtain ⟨hi32, hlo⟩ := h3
    subst hi32
    subst hlo
    have hrem : ¬ (st.input.remaining = 0) := by
      have hs := get_u64_varint_ok_sound h1
      simp only [Cursor.remaining]
      omega
    rw [get_chunk, if_neg hrem]
    simp only [h1, h2, ← hcomp, if_false, Bool.false_eq_true]
    rw [if_neg (by push_neg; exact ⟨hlen, horig⟩)]

/-- Witness for C10 at a concrete input: one uncompressed chunk `[2, 1, 7]`
filling a one-byte output buffer; the guard passes and `get_chunk` completes
the in-bounds copy. -/
theorem get_chunk_overflow_guard_bounds_witness :
    get_chunk (fun cv _ => .ok cv) ⟨⟨[2, 1, 7], 0⟩, ⟨[0], 0⟩⟩
      = .ok (false, ⟨⟨[2, 1, 7], 3⟩, ⟨[7], 1⟩⟩) := by
  have h := get_chunk_overflow_guard_bounds (fun cv _ => .ok cv)
    ⟨⟨[2, 1, 7], 0⟩, ⟨[0], 0⟩⟩ 2 1 0 1 ⟨[2, 1, 7], 1⟩ ⟨[2, 1, 7], 2⟩ ⟨[2, 1, 7], 2⟩ false
    rfl rfl rfl ⟨rfl, rfl⟩ (by decide) (by decide)
  exact h.2.2.2.2 rfl

theorem chunksOfB_nil : chunksOfB [] = [] := by
  unfold chunksOfB
  simp

theorem chunksOfB_cons {l : List Nat} (h : l ≠ []) :
    chunksOfB l = l.take BLOCKSIZE :: chunksOfB (l.drop BLOCKSIZE) := by
  conv_lhs => rw [chunksOfB]
  rw [if_neg h]

theorem take_min_blocksize (data : List Nat) :
    data.take (min data.length BLOCKSIZE) = data.take BLOCKSIZE := by
  rcases le_total data.length BLOCKSIZE with h | h
  · rw [min_eq_left h, List.take_length, List.take_of_length_le h]
  · rw [min_eq_right h]

theorem drop_min_blocksize (data : List Nat) :
    data.drop (min data.length BLOCKSIZE) = data.drop BLOCKSIZE := by
  rcases le_total data.length BLOCKSIZE with h | h
  · rw [min_eq_left h, List.drop_length, List.drop_eq_nil_iff.mpr h]
  · rw [min_eq_right h]

theorem ser_encChunk (compress : List Nat → List Nat) (blk : List Nat) :
    (encChunk compress blk).ser = write_chunk compress blk := by
  simp [WireChunk.ser, encChunk, write_chunk, WireChunk.isComp]

theorem encodeLoop_spec (compress : List Nat → List Nat) :
    ∀ (f : Nat) (data res : List Nat), data.length < f →
      encodeLoop compress f data res
        = res ++ serChunks ((chunksOfB data).map (encChunk compress)) := by
  intro f
  induction f with
  | zero => intro data res h; exact absurd h (by omega)
  | succ f ih =>
    intro data res h
    by_cases hd : data.length = 0
    · have hnil : data = [] := List.length_eq_zero.mp hd
      subst hnil
      simp [encodeLoop, chunksOfB_nil, serChunks]
    · have hne : data ≠ [] := fun hh => hd (by simp [hh])
      have hB : (0 : Nat) < BLOCKSIZE := by norm_num [BLOCKSIZE]
      rw [encodeLoop, if_neg hd]
      simp only [take_min_blocksize, drop_min_blocksize]
      rw [ih (data.drop BLOCKSIZE) (res ++ write_chunk compress (data.take BLOCKSIZE))
        (by rw [List.length_drop]; omega)]
      rw [chunksOfB_cons hne]
      simp only [List.map_cons, serChunks, ser_encChunk, List.append_assoc]

theorem encode_stream_spec (compress : List Nat → List Nat) (data : List Nat) :
    encode_stream compress data
      = .ok (serChunks ((chunksOfB data).map (encChunk compress))) := by
  unfold encode_stream
  rw [encodeLoop_spec compress (data.length + 1) data [] (by omega)]
  simp

theorem chunksOfB_join : ∀ (n : Nat) (b : List Nat), b.length ≤ n →
    wsJoin (chunksOfB b) = b := by
  intro n
  induction n with
  | zero =>
    intro b hb
    have hnil : b = [] := List.length_eq_zero.mp (by omega)
    subst hnil
    simp [chunksOfB_nil, wsJoin]
  | succ n ih =>
    intro b hb
    by_cases hbe : b = []
    · subst hbe
      simp [chunksOfB_nil, wsJoin]
    · have hB : (0 : Nat) < BLOCKSIZE := by norm_num [BLOCKSIZE]
      have hbl : 0 < b.length := List.length_pos.mpr hbe
      rw [chunksOfB_cons hbe]
      simp only [wsJoin]
      rw [ih (b.drop BLOCKSIZE) (by rw [List.length_drop]; omega)]
      exact List.take_append_drop _ b

theorem chunksOfB_sumOrig (compress : List Nat → List Nat) :
    ∀ (n : Nat) (b : List Nat), b.length ≤ n →
      sumOrig ((chunksOfB b).map (encChunk compress)) = b.length := by
  intro n
  induction n with
  | zero =>
    intro b hb
    have hnil : b = [] := List.length_eq_zero.mp (by omega)
    subst hnil
    simp [chunksOfB_nil, sumOrig]
  | succ n ih =>
    intro b hb
    by_cases hbe : b = []
    · subst hbe
      simp [chunksOfB_nil, sumOrig]
    · have hB : (0 : Nat) < BLOCKSIZE := by norm_num [BLOCKSIZE]
      have hbl : 0 < b.length := List.length_pos.mpr hbe
      rw [chunksOfB_cons hbe]
      simp only [List.map_cons, sumOrig, encChunk]
      rw [ih (b.drop BLOCKSIZE) (by rw [List.length_drop]; omega)]
      rw [List.length_take, List.length_drop]
      omega

theorem chunksOfB_mem_le : ∀ (n : Nat) (b blk : List Nat), b.length ≤ n →
    blk ∈ chunksOfB b → blk.length ≤ BLOCKSIZE := by
  intro n
  induction n with
  | zero =>
    intro b blk hb hm
    have hnil : b = [] := List.length_eq_zero.mp (by omega)
    subst hnil
    rw [chunksOfB_nil] at hm
    exact absurd hm (by simp)
  | succ n ih =>
    intro b blk hb hm
    by_cases hbe : b = []
    · subst hbe
      rw [chunksOfB_nil] at hm
      exact absurd hm (by simp)
    · have hB : (0 : Nat) < BLOCKSIZE := by norm_num [BLOCKSIZE]
      have hbl : 0 < b.length := List.length_pos.mpr hbe
      rw [chunksOfB_cons hbe] at hm
      rcases List.mem_cons.mp hm with hm1 | hm2
      · rw [hm1, List.length_take]
        omega
      · exact ih (b.drop BLOCKSIZE) blk (by rw [List.length_drop]; omega) hm2

theorem forall2_decodesTo (compress : List Nat → List Nat)
    (dec : List Nat → Nat → Except DecompressErr (List Nat))
    (hrt : ∀ s, dec (compress s) s.length = .ok s) :
    ∀ (bs : List (List Nat)),
      List.Forall₂ (DecodesTo dec) (bs.map (encChunk compress)) bs := by
  intro bs
  induction bs with
  | nil => exact List.Forall₂.nil
  | cons blk bs ih =>
    refine List.Forall₂.cons ⟨rfl, ?_⟩ ih
    simp only [show WireChunk.isComp (encChunk compress blk) = true from rfl, if_true]
    exact hrt blk

theorem encChunk_wf (compress : List Nat → List Nat)
    (hcb : ∀ s, s.length ≤ BLOCKSIZE → (compress s).length < 2 ^ 31)
    (blk : List Nat) (hblk : blk.length ≤ BLOCKSIZE) : (encChunk compress blk).wf := by
  have hB : BLOCKSIZE = 1048576 := rfl
  refine ⟨by norm_num [encChunk], ?_, hcb blk hblk, ?_⟩
  · simp only [encChunk]
    rw [hB] at hblk
    omega
  · simp [WireChunk.framedLen, WireChunk.isComp, encChunk]

/-- C9: the encoder's chunking boundary.  On every input of exactly
`BLOCKSIZE` (1 MiB) bytes `encode_stream` emits exactly one chunk (its whole
output is one `write_chunk` frame of the input), and on every input of
`BLOCKSIZE + 1` bytes exactly two chunks, the second framing exactly the one
remaining byte of original data. -/
theorem encode_blocksize_boundary (compress : List Nat → List Nat) (b b1 : List Nat)
    (h1 : b.length = BLOCKSIZE) (h2 : b1.length = BLOCKSIZE + 1) :
    encode_stream compress b = .ok (write_chunk compress b) ∧
    encode_stream compress b1 = .ok (write_chunk compress (b1.take BLOCKSIZE)
      ++ write_chunk compress (b1.drop BLOCKSIZE)) ∧
    (b1.drop BLOCKSIZE).length = 1 := by
  have hB : (0 : Nat) < BLOCKSIZE := by norm_num [BLOCKSIZE]
  refine ⟨?_, ?_, by rw [List.length_drop, h2]; omega⟩
  · rw [encode_stream_spec]
    have hne : b ≠ [] := by
      intro hh
      rw [hh] at h1
      have h0 : (0 : Nat) = BLOCKSIZE := h1
      norm_num [BLOCKSIZE] at h0
    rw [chunksOfB_cons hne]
    rw [List.drop_eq_nil_iff.mpr (by omega : b.length ≤ BLOCKSIZE), chunksOfB_nil,
      List.take_of_length_le (by omega : b.length ≤ BLOCKSIZE)]
    simp [serChunks, ser_encChunk]
  · rw [encode_stream_spec]
    have hne : b1 ≠ [] := by
      intro hh
      rw [hh] at h2
      have h0 : (0 : Nat) = BLOCKSIZE + 1 := h2
      norm_num [BLOCKSIZE] at h0
    have hlen2 : (b1.drop BLOCKSIZE).length = 1 := by rw [List.length_drop, h2]; omega
    have hne2 : b1.drop BLOCKSIZE ≠ [] := by
      intro hh
      rw [hh] at hlen2
      simp at hlen2
    rw [chunksOfB_cons hne]
    rw [chunksOfB_cons hne2]
    rw [List.take_of_length_le (by omega : (b1.drop BLOCKSIZE).length ≤ BLOCKSIZE),
      List.drop_eq_nil_iff.mpr (by omega : (b1.drop BLOCKSIZE).length ≤ BLOCKSIZE),
      chunksOfB_nil]
    simp [serChunks, ser_encChunk]

/-- Witness for C9 at concrete inputs: the all-zero inputs of length
`BLOCKSIZE` and `BLOCKSIZE + 1`. -/
theorem encode_blocksize_boundary_witness :
    encode_stream (fun s => s) (List.replicate BLOCKSIZE 0)
      = .ok (write_chunk (fun s => s) (List.replicate BLOCKSIZE 0)) ∧
    encode_stream (fun s => s) (List.replicate (BLOCKSIZE + 1) 0)
      = .ok (write_chunk (fun s => s) ((List.replicate (BLOCKSIZE + 1) 0).take BLOCKSIZE)
        ++ write_chunk (fun s => s) ((List.replicate (BLOCKSIZE + 1) 0).drop BLOCKSIZE)) ∧
    ((List.replicate (BLOCKSIZE + 1) 0).drop BLOCKSIZE).length = 1 := by
  exact encode_blocksize_boundary (fun s => s)
    (List.replicate BLOCKSIZE 0) (List.replicate (BLOCKSIZE + 1) 0)
    (by simp) (by simp)

/-- C1: the round trip.  For every byte sequence `b` (including the empty
sequence), decoding the encoded stream with `max_output = b.length` returns
exactly `b`.  The external compressor is assumed to satisfy the collaborator
contract (decompression inverts compression at the declared length) and to
produce blocks whose compressed size fits an i32 (true of lz4 on 1 MiB
blocks); the input length is bounded by the 64-bit usize as every Rust slice
is. -/
theorem round_trip (compress : List Nat → List Nat)
    (dec : List Nat → Nat → Except DecompressErr (List Nat)) (b : List Nat)
    (hrt : ∀ s, dec (compress s) s.length = .ok s)
    (hcb : ∀ s, s.length ≤ BLOCKSIZE → (compress s).length < 2 ^ 31)
    (hb : b.length < 2 ^ 64) :
    ∃ enc, encode_stream compress b = .ok enc ∧
      decode_stream dec ⟨enc, 0⟩ b.length = .ok b := by
  refine ⟨serChunks ((chunksOfB b).map (encChunk compress)),
    encode_stream_spec compress b, ?_⟩
  have hwf : ∀ c ∈ (chunksOfB b).map (encChunk compress), c.wf := by
    intro c hc
    rw [List.mem_map] at hc
    obtain ⟨blk, hblk, rfl⟩ := hc
    exact encChunk_wf compress hcb blk (chunksOfB_mem_le b.length b blk (le_refl _) hblk)
  have hsum : sumOrig ((chunksOfB b).map (encChunk compress)) = b.length :=
    chunksOfB_sumOrig compress b.length b (le_refl _)
  have h := decode_stream_serChunks (k := b.length)
    (forall2_decodesTo compress dec hrt (chunksOfB b)) hwf
    (by rw [hsum]; exact hb) (by rw [hsum])
  rw [chunksOfB_join b.length b (le_refl _)] at h
  exact h

/-- Witness for C1 at a concrete input: the two-byte sequence `[72, 105]`
with the identity collaborator. -/
theorem round_trip_witness :
    ∃ enc, encode_stream (fun s => s) [72, 105] = .ok enc ∧
      decode_stream (fun cv _ => .ok cv) ⟨enc, 0⟩ 2 = .ok [72, 105] := by
  have h := round_trip (fun s => s) (fun cv _ => .ok cv) [72, 105]
    (fun s => rfl)
    (fun s hs => by
      have hB : BLOCKSIZE = 1048576 := rfl
      rw [hB] at hs
      show s.length < 2 ^ 31
      omega)
    (by norm_num)
  exact h

/-- Supporting lemma marking the boundary of the compressed-length cast slip:
for every stream whose (otherwise well-formed) chunks are followed by a chunk
with the Compressed flag set whose declared compressed_length is below
2 to the 31 — the region where the size pass's `as i32 as usize` cast is the
identity — and exceeds the remaining input bytes, `decode_stream` fails with
the Overflow error raised by the size pass (surfaced by the driver as
CorruptedOverflow), whatever the decompressor is: no decompression is ever
attempted, as the result does not depend on `dec`.  Outside that region the
claimed behavior fails; see the refutation below. -/
theorem framed_len_exceeds_input_overflow
    (cs : List WireChunk) (flags orig clen k : Nat) (t : List Nat)
    (hwf : ∀ c ∈ cs, c.wf) (hsum : sumOrig cs < 2 ^ 64)
    (hbit : flags % 2 ^ 32 % 2 = 1) (hf : flags < 2 ^ 64) (ho : orig < 2 ^ 64)
    (hc : clen < 2 ^ 31) (ht : t.length < clen) :
    ∀ dec, decode_stream dec
      ⟨serChunks cs ++ (putVarint flags ++ (putVarint orig ++ (putVarint clen ++ t))), 0⟩ k
      = .error .corruptedOverflow := by
  intro dec
  have hcalc0 := calc_dc_size_serChunks
    (putVarint flags ++ (putVarint orig ++ (putVarint clen ++ t))) hwf hsum
  have hdropL : (serChunks cs ++ (putVarint flags ++ (putVarint orig
      ++ (putVarint clen ++ t)))).drop (serChunks cs).length
      = putVarint flags ++ (putVarint orig ++ (putVarint clen ++ t)) :=
    List.drop_left _ _
  have hF := get_u64_varint_put hf hdropL
  have hd1 := drop_of_drop_append hdropL
  have hO := get_u64_varint_put ho hd1
  have hd2 := drop_of_drop_append hd1
  have hC := get_u64_varint_put (v := clen) (by omega) hd2
  have hd3 := drop_of_drop_append hd2
  have hrem1 : ¬ (Cursor.remaining ⟨serChunks cs ++ (putVarint flags ++ (putVarint orig
      ++ (putVarint clen ++ t))), (serChunks cs).length⟩ = 0) := by
    have h1 := length_drop_of_append hdropL
    have h2 := putVarint_length_pos flags
    simp only [Cursor.remaining]
    omega
  have hbitb : (flags % 2 ^ 32 % 2 == 1) = true := by
    rw [hbit]
    decide
  have hcast : u64_as_i32_as_usize clen = clen := u64_as_i32_as_usize_small hc
  have hguard : clen > Cursor.remaining ⟨serChunks cs ++ (putVarint flags
      ++ (putVarint orig ++ (putVarint clen ++ t))), (serChunks cs).length
      + (putVarint flags).length + (putVarint orig).length + (putVarint clen).length⟩ := by
    have h1 : ((serChunks cs ++ (putVarint flags ++ (putVarint orig
        ++ (putVarint clen ++ t)))).drop ((serChunks cs).length
        + (putVarint flags).length + (putVarint orig).length
        + (putVarint clen).length)).length = t.length := by
      rw [hd3]
    rw [List.length_drop] at h1
    simp only [Cursor.remaining]
    omega
  obtain ⟨f1, hf1⟩ : ∃ f1, (serChunks cs ++ (putVarint flags ++ (putVarint orig
      ++ (putVarint clen ++ t)))).length + 1 - cs.length = f1 + 1 := by
    have h1 := length_le_serChunks cs
    exact ⟨(serChunks cs ++ (putVarint flags ++ (putVarint orig
      ++ (putVarint clen ++ t)))).length + 1 - cs.length - 1,
      by simp only [List.length_append]; omega⟩
  have hstep : calcLoop (f1 + 1) ⟨serChunks cs ++ (putVarint flags ++ (putVarint orig
      ++ (putVarint clen ++ t))), (serChunks cs).length⟩ (sumOrig cs) 0
      = .error .overflow := by
    rw [calcLoop, if_neg hrem1]
    simp only [hF, hbitb, if_true, eq_self_iff_true, hO, hC, hcast]
    rw [if_pos hguard]
  have hcalc : calc_dc_size ⟨serChunks cs ++ (putVarint flags ++ (putVarint orig
      ++ (putVarint clen ++ t))), 0⟩ = .error .overflow := by
    rw [hcalc0, hf1, hstep]
  unfold decode_stream
  simp only [hcalc]
  rfl

/-- Concrete instance of the supporting lemma: the stream `[1, 0, 1]`
declares a compressed chunk with compressed_length 1 but has no payload
bytes left, and decoding fails with CorruptedOverflow. -/
theorem framed_len_exceeds_input_overflow_witness :
    decode_stream (fun cv _ => .ok cv) ⟨[1, 0, 1], 0⟩ 9 = .error .corruptedOverflow := by
  have h := framed_len_exceeds_input_overflow [] 1 0 1 9 []
    (by simp) (by norm_num [sumOrig]) (by norm_num) (by norm_num) (by norm_num)
    (by norm_num) (by norm_num) (fun cv _ => .ok cv)
  exact h

/-- C7: refuted on the code.  The stream
`[0x01, 0x01, 0x01, 0x00, 0x01, 0x00, 0x80, 0x80, 0x80, 0x80, 0x10]` holds a
compressed chunk (original_length 1, compressed_length 1, payload `[0x00]`)
followed by a chunk declaring compressed_length 2 to the 32 — far more than
the zero input bytes remaining after its header — yet `decode_stream` does
not fail with an Overflow error: the `as i32 as usize` cast at src line 124
truncates that length to 0, so the size pass accepts the whole stream with
total 1, and the decode then attempts decompression of the first chunk and
fails with the decompressor's LZ4 error (the payload `[0x00]` is not a valid
compressed block, so a contract-conforming decompressor rejects it) instead
of the Overflow the claim requires. -/
theorem overlong_compressed_length_escapes_overflow :
    calc_dc_size ⟨[1, 1, 1, 0, 1, 0, 128, 128, 128, 128, 16], 0⟩
      = .ok (1, ⟨[1, 1, 1, 0, 1, 0, 128, 128, 128, 128, 16], 0⟩) ∧
    decode_stream (fun _ _ => .error .corrupt)
      ⟨[1, 1, 1, 0, 1, 0, 128, 128, 128, 128, 16], 0⟩ 9
      = .error (.lz4 .corrupt) :=
  ⟨rfl, rfl⟩

end LZ4Stream
